import Mathlib

/-!
# Verification of the `dither` image-dithering library

A shallow embedding of the pure computational core of the `dither` Go
library, together with proofs about it.  Machine integers are modelled as
`Nat` with explicit `% 2^w` wherever the Go code can overflow; Go slices
are Lean lists; Go code that can panic (out-of-range indexing, nil
dereference) is modelled in the `Option` monad, `none` marking the panic.

The file is organised as: definitions (translated from the Go source),
then theorems.
-/

namespace Dither

/-- A `color.RGBA64` value: 16-bit R, G, B, A channels, stored as `Nat`.
The fields of the Go struct are `uint16`, so meaningful values are
`< 2^16`; the embedding keeps `Nat` and states the bound where needed. -/
structure RGBA64 where
  R : Nat
  G : Nat
  B : Nat
  A : Nat
deriving DecidableEq, Repr

/-- A linear-RGB palette entry, `[3]uint16` in the Go source. -/
structure LinColor where
  r : Nat
  g : Nat
  b : Nat
deriving DecidableEq, Repr

/-! ## `sqDiff` (dither.go)

```go
func sqDiff(v1 uint16, v2 uint16) uint32 {
    d := uint32(v1) - uint32(v2)
    return (d * d) >> 2
}
```

`uint32` subtraction wraps modulo `2^32`; the square again wraps; `>> 2`
is division by 4. -/

/-- The wrap-around subtraction `uint32(v1) - uint32(v2)` for
`v1 v2 < 2^32`. -/
def u32sub (v1 v2 : Nat) : Nat :=
  (v1 + (2 ^ 32 - v2)) % 2 ^ 32

def sqDiff (v1 v2 : Nat) : Nat :=
  ((u32sub v1 v2 * u32sub v1 v2) % 2 ^ 32) >>> 2

/-- The true squared channel distance, divided by 4: what the spec says
`sqDiff` computes. -/
def sqDiffSpec (v1 v2 : Nat) : Nat :=
  (max v1 v2 - min v1 v2) ^ 2 / 4
/-! ## `closestColor` (dither.go)

```go
func (d *Ditherer) closestColor(r, g, b uint16) int {
    color, best := 0, uint32(math.MaxUint32)
    for i, c := range d.linearPalette {
        dist := uint32(
            1063*uint64(sqDiff(r, c[0]))/5000 +
                447*uint64(sqDiff(g, c[1]))/625 +
                361*uint64(sqDiff(b, c[2]))/5000,
        )
        if dist < best {
            if dist == 0 {
                return i
            }
            color, best = i, dist
        }
    }
    return color
}
```

The `uint64` arithmetic cannot overflow (`sqDiff < 2^32`, so each product
is `< 2^42`), hence plain `Nat` arithmetic models it; the final `uint32`
cast is the `% 2^32`. -/

/-- The luminance-weighted squared distance of the spec:
`d² = (1063/5000)·sqDiff(r,Pr) + (447/625)·sqDiff(g,Pg) + (361/5000)·sqDiff(b,Pb)`
in exact integer arithmetic, exactly as the spec and the claim state it. -/
def weightedDist (r g b : Nat) (c : LinColor) : Nat :=
  1063 * sqDiff r c.r / 5000 + 447 * sqDiff g c.g / 625 + 361 * sqDiff b c.b / 5000

/-- The distance the Go loop computes: the `uint64` expression, cast to
`uint32`. -/
def dist (r g b : Nat) (c : LinColor) : Nat :=
  weightedDist r g b c % 2 ^ 32

/-- The `for i, c := range d.linearPalette` loop of `closestColor`,
with accumulators `color` and `best` and `i` the index of the head of the
remaining list. -/
def closestLoop (r g b : Nat) : List LinColor → Nat → Nat → Nat → Nat
  | [], _, color, _ => color
  | c :: rest, i, color, best =>
    if dist r g b c < best then
      if dist r g b c = 0 then i
      else closestLoop r g b rest (i + 1) i (dist r g b c)
    else closestLoop r g b rest (i + 1) color best

def closestColor (r g b : Nat) (linearPalette : List LinColor) : Nat :=
  closestLoop r g b linearPalette 0 0 (2 ^ 32 - 1)

/-- `res` is the smallest index of `L` attaining the minimal distance. -/
def isFirstArgmin (D : LinColor → Nat) (L : List LinColor) (res : Nat) : Prop :=
  res < L.length ∧
  (∀ j, j < L.length → D (L.getD res ⟨0, 0, 0⟩) ≤ D (L.getD j ⟨0, 0, 0⟩)) ∧
  (∀ j, j < res → D (L.getD res ⟨0, 0, 0⟩) < D (L.getD j ⟨0, 0, 0⟩))

/-! ## `samePalette` (dither.go)

```go
func samePalette(p1 []color.Color, p2 []color.Color) bool {
    if len(p1) != len(p2) {
        return false
    }
    diff := make(map[color.Color]int, len(p1))
    for _, x := range p1 {
        diff[x]++
    }
    for _, y := range p2 {
        if _, ok := diff[y]; !ok {
            return false
        }
        diff[y] -= 1
        if diff[y] == 0 {
            delete(diff, y)
        }
    }
    return len(diff) == 0
}
```

The Go map with `color.Color` keys is modelled as an association list
with at most one entry per key; key equality is Go interface equality,
i.e. decidable equality of the key type. -/

section SamePalette

variable {α : Type} [DecidableEq α]

/-- Go map lookup `v, ok := m[k]`. -/
def mapGet : List (α × Int) → α → Option Int
  | [], _ => none
  | e :: m, k => if e.1 = k then some e.2 else mapGet m k

/-- Go map store `m[k] = v`. -/
def mapSet : List (α × Int) → α → Int → List (α × Int)
  | [], k, v => [(k, v)]
  | e :: m, k, v => if e.1 = k then (k, v) :: m else e :: mapSet m k v

/-- Go map delete `delete(m, k)`. -/
def mapDel : List (α × Int) → α → List (α × Int)
  | [], _ => []
  | e :: m, k => if e.1 = k then m else e :: mapDel m k

/-- The first loop of `samePalette`: `for _, x := range p1 { diff[x]++ }`
(a missing key reads as the zero value `0`). -/
def buildDiff (p1 : List α) : List (α × Int) :=
  p1.foldl (fun diff x => mapSet diff x ((mapGet diff x).getD 0 + 1)) []

/-- The second loop of `samePalette`, bailing out early when a color of
`p2` is not in the map. -/
def consumeLoop : List α → List (α × Int) → Option (List (α × Int))
  | [], diff => some diff
  | y :: p2, diff =>
    match mapGet diff y with
    | none => none
    | some v =>
      if v - 1 = 0 then consumeLoop p2 (mapDel (mapSet diff y (v - 1)) y)
      else consumeLoop p2 (mapSet diff y (v - 1))

def samePalette (p1 p2 : List α) : Bool :=
  if p1.length ≠ p2.length then false
  else
    match consumeLoop p2 (buildDiff p1) with
    | none => false
    | some diff => diff.isEmpty

/-- The multiset a map state denotes: the count recorded for key `k`
(`0` when absent). -/
def mapCount (m : List (α × Int)) (k : α) : Int :=
  (mapGet m k).getD 0

/-- Well-formedness of a map state: keys are distinct (as in a real map)
and all stored counts are at least 1 (maintained by both loops). -/
def goodMap (m : List (α × Int)) : Prop :=
  (m.map Prod.fst).Nodup ∧ ∀ e ∈ m, 1 ≤ e.2

end SamePalette

/-! ## Configuration validation and the top of `Dither` (dither.go)

```go
func (d *Ditherer) invalid() bool {
    if !((d.Mapper != nil) != ((d.Matrix != nil) != (d.Special != 0))) {
        return true
    }
    if d.Special != 0 {
        return true
    }
    return false
}

func (d *Ditherer) Dither(src image.Image) image.Image {
    if d.invalid() {
        panic("dither: invalid Ditherer")
    }
    var img draw.Image
    if pi, ok := src.(*image.Paletted); ok {
        if !samePalette(d.palette, pi.Palette) {
            img = copyOfImage(src)
        }
    } else if img, ok = src.(draw.Image); !ok {
        img = copyOfImage(src)
    }
    ...   // img is used unconditionally from here on
}
```

Note the missing `else` in the `*image.Paletted` branch: when the
palettes are the same, `img` is never assigned and stays the nil
interface, which the rest of `Dither` then dereferences — a panic. -/

/-- The configuration state that `invalid` inspects: whether `Mapper`
and `Matrix` are non-nil, and the `Special` value. -/
structure DitherConfig where
  hasMapper : Bool
  hasMatrix : Bool
  special : Int
deriving DecidableEq, Repr

def invalid (d : DitherConfig) : Bool :=
  if !(d.hasMapper != (d.hasMatrix != (d.special != 0))) then true
  else if d.special != 0 then true
  else false

/-- The number of populated algorithm selectors among
`{Matrix, Mapper, Special}`. -/
def selectorCount (d : DitherConfig) : Nat :=
  (if d.hasMapper then 1 else 0) + (if d.hasMatrix then 1 else 0) +
    (if d.special ≠ 0 then 1 else 0)

/-- The three relevant shapes of the `src` argument of `Dither`: an
`*image.Paletted` carrying its palette, some other mutable `draw.Image`,
or an image that cannot be cast to `draw.Image`. -/
inductive SrcImage where
  | paletted (palette : List RGBA64)
  | writable
  | readonly
deriving DecidableEq, Repr

/-- The destination `Dither` works on. -/
inductive DitherDest where
  | inPlace
  | copy
deriving DecidableEq, Repr

/-- The destination-selection logic at the top of `Dither`.  `none`
models the case where `img` is left as the nil interface, which the rest
of the function dereferences unconditionally — a run-time panic. -/
def selectDest (dpal : List RGBA64) : SrcImage → Option DitherDest
  | .paletted p => if samePalette dpal p then none else some .copy
  | .writable => some .inPlace
  | .readonly => some .copy

/-- `Dither` up to and including destination selection: `none` models a
panic (the `invalid` panic, or the nil-destination dereference). -/
def ditherEntry (d : DitherConfig) (dpal : List RGBA64) (src : SrcImage) :
    Option DitherDest :=
  if invalid d then none else selectDest dpal src

/-! ## `premult` (dither.go)

```go
func (d *Ditherer) premult(c color.RGBA64, x, y int, img image.Image) color.RGBA64 {
    _, _, _, a := img.At(x, y).RGBA()
    if a == 0 {
        return color.RGBA64{0, 0, 0, 0}
    }
    if a == 0xffff {
        return c
    }
    r := uint32(c.R)
    r *= a
    r /= 0xffff
    ...
    return color.RGBA64{R: uint16(r), G: uint16(g), B: uint16(b), A: uint16(a)}
}
```

`a` is the premultiplied 16-bit alpha (a `uint32` in `[0, 65535]` by the
`color.Color` contract) of the source pixel; the products are computed in
`uint32` and the results cast back to `uint16`. -/

def premult (c : RGBA64) (a : Nat) : RGBA64 :=
  if a = 0 then ⟨0, 0, 0, 0⟩
  else if a = 65535 then c
  else
    ⟨c.R * a % 2 ^ 32 / 65535 % 2 ^ 16,
     c.G * a % 2 ^ 32 / 65535 % 2 ^ 16,
     c.B * a % 2 ^ 32 / 65535 % 2 ^ 16,
     a % 2 ^ 16⟩

/-- `premult` as the claim words it: fully transparent black for a fully
transparent source pixel; the quantized color unchanged for an opaque
one; otherwise each RGB channel scaled by `a/65535` with the alpha field
replaced by the source alpha. -/
def premultSpec (c : RGBA64) (a : Nat) : RGBA64 :=
  if a = 0 then ⟨0, 0, 0, 0⟩
  else if a = 65535 then c
  else ⟨c.R * a / 65535, c.G * a / 65535, c.B * a / 65535, a⟩

/-! ## Bayer matrix synthesis (pixelmappers.go)

```go
func bayerMatrix(xdim, ydim uint) [][]uint {
    M := log2(xdim)
    L := log2(ydim)
    matrix := make([][]uint, ydim)
    for y := uint(0); y < ydim; y++ {
        matrix[y] = make([]uint, xdim)
        for x := uint(0); x < xdim; x++ {
            var v, offset uint
            xmask := M
            ymask := L
            if M == 0 || (M > L && L != 0) {
                xc := x ^ ((y << M) >> L)
                yc := y
                for bit := uint(0); bit < M+L; {
                    ymask--
                    v |= ((yc >> ymask) & 1) << bit
                    bit++
                    for offset += M; offset >= L; offset -= L {
                        xmask--
                        v |= ((xc >> xmask) & 1) << bit
                        bit++
                    }
                }
            } else {
                ...   // mirror image with the roles of x and y swapped
            }
            matrix[y][x] = v
        }
    }
    return matrix
}
```

Go `uint` arithmetic is 64-bit and wraps; the embedding works in `Nat`
with an explicit `% 2^64` on every operation that can exceed 64 bits
(the shifted bit insertion, the shifted channel, and the mask
decrements, which would wrap for a mask of 0).  Both branches are the
same loop with the roles of the two channels swapped, so a single
parametrised pair of loops (`bayerInner`, `bayerOuter`) serves both.
The loops terminate by fuel: the outer loop runs at most `total = M+L`
times since `bit` strictly increases; the inner loop subtracts
`modulus ≥ 1` from `offset` each iteration, so its own starting `offset`
bounds its iteration count. -/

/-- Go's `log2` loop (pixelmappers.go), with the initial value as fuel:
the loop shifts right once per step, so `v` steps always suffice. -/
def log2loop : Nat → Nat → Nat → Nat
  | 0, _, r => r
  | fuel + 1, v, r => if v = 0 then r else log2loop fuel (v >>> 1) (r + 1)

def log2 (v : Nat) : Nat := log2loop v (v >>> 1) 0

/-- The inner loop
`for offset += incr; offset >= modulus; offset -= modulus { bmask--; v |= ((bc >> bmask) & 1) << bit; bit++ }`
(called with `offset` already incremented).  State and result:
`(offset, bit, v, bmask)`. -/
def bayerInner (bc modulus : Nat) :
    Nat → Nat → Nat → Nat → Nat → Nat × Nat × Nat × Nat
  | 0, offset, bit, v, bmask => (offset, bit, v, bmask)
  | fuel + 1, offset, bit, v, bmask =>
    if modulus ≤ offset then
      bayerInner bc modulus fuel (offset - modulus) (bit + 1)
        (v ||| ((((bc >>> ((bmask + (2 ^ 64 - 1)) % 2 ^ 64)) &&& 1) <<< bit) % 2 ^ 64))
        ((bmask + (2 ^ 64 - 1)) % 2 ^ 64)
    else (offset, bit, v, bmask)

/-- The outer loop `for bit := uint(0); bit < total;` of a Bayer cell:
inserts one bit of channel `ac`, then runs the inner loop on channel
`bc`. -/
def bayerOuter (ac bc incr modulus total : Nat) :
    Nat → Nat → Nat → Nat → Nat → Nat → Nat
  | 0, _, v, _, _, _ => v
  | fuel + 1, bit, v, offset, amask, bmask =>
    if bit < total then
      let amask' := (amask + (2 ^ 64 - 1)) % 2 ^ 64
      let v1 := v ||| ((((ac >>> amask') &&& 1) <<< bit) % 2 ^ 64)
      let r := bayerInner bc modulus (offset + incr) (offset + incr) (bit + 1) v1 bmask
      bayerOuter ac bc incr modulus total fuel r.2.1 r.2.2.1 r.1 amask' r.2.2.2
    else v

/-- One cell of the Bayer matrix.  Branch 1 (`M == 0 || (M > L && L != 0)`)
consumes `y`-bits in the outer loop and `x`-bits in the inner one;
branch 2 is the mirror image. -/
def bayerCell (xdim ydim x y : Nat) : Nat :=
  let M := log2 xdim
  let L := log2 ydim
  if M = 0 ∨ (L < M ∧ L ≠ 0) then
    bayerOuter y (x ^^^ (((y <<< M) % 2 ^ 64) >>> L)) M L (M + L) (M + L) 0 0 0 L M
  else
    bayerOuter x (y ^^^ (((x <<< L) % 2 ^ 64) >>> M)) L M (M + L) (M + L) 0 0 0 M L

/-- `bayerMatrix(xdim, ydim)`: `ydim` rows of `xdim` cells. -/
def bayerMatrix (xdim ydim : Nat) : List (List Nat) :=
  (List.range ydim).map fun y => (List.range xdim).map fun x => bayerCell xdim ydim x y

/-- The matrix-selection logic of `Bayer` (pixelmappers.go): hand-coded
matrices for (3,3), (5,3) and (3,5), the generator when both dimensions
are powers of two, and `none` for the two panics (a zero dimension, or
dimensions that are not both powers of two).  The second component is
`max := x * y`, the divisor later passed to `convThresholdToAddition`. -/
def bayerChoice (x y : Nat) : Option (List (List Nat) × Nat) :=
  if x = 0 ∨ y = 0 then none
  else if x = 3 ∧ y = 3 then
    some ([[0, 5, 2], [3, 8, 7], [6, 1, 4]], x * y)
  else if x = 5 ∧ y = 3 then
    some ([[0, 12, 7, 3, 9], [14, 8, 1, 5, 11], [6, 4, 10, 13, 2]], x * y)
  else if x = 3 ∧ y = 5 then
    some ([[0, 14, 16], [12, 8, 4], [7, 1, 10], [3, 5, 13], [9, 11, 2]], x * y)
  else if x &&& (x - 1) = 0 ∧ y &&& (y - 1) = 0 then
    some (bayerMatrix x y, x * y)
  else none

/-! ## The error-diffusion driver (dither.go, `Dither`, matrix path)

```go
b := img.Bounds()
curPx := d.Matrix.CurrentPixel()

lins := make([][][3]uint16, b.Dy())
for i := 0; i < len(lins); i++ {
    lins[i] = make([][3]uint16, b.Dx())
}

linearSet := func(x, y int, r, g, b uint16) { lins[y][x] = [3]uint16{r, g, b} }
linearAt := func(x, y int) (uint16, uint16, uint16) { c := lins[y][x]; return c[0], c[1], c[2] }

for y := b.Min.Y; y < b.Max.Y; y++ {
    for x := b.Min.X; x < b.Max.X; x++ {
        r, g, b, _ := unpremultAndLinearize(img.At(x, y))
        linearSet(x, y, r, g, b)
    }
}

for y := b.Min.Y; y < b.Max.Y; y++ {
    for x := b.Min.X; x < b.Max.X; x++ {
        oldX := x
        if d.Serpentine && y%2 == 0 { x = b.Max.X - 1 - x }
        oldR, oldG, oldB := linearAt(x, y)
        newColorIdx := d.closestColor(oldR, oldG, oldB)
        img.Set(x, y, d.premult(d.palette[newColorIdx].(color.RGBA64), x, y, img))
        new := d.linearPalette[newColorIdx]
        er, eg, eb := int32(oldR)-int32(new[0]), ...
        for yy := range d.Matrix {
            for xx := range d.Matrix[yy] {
                if d.Matrix[yy][xx] == 0 { continue }
                deltaX, deltaY := d.Matrix.Offset(xx, yy, curPx)
                if d.Serpentine && y%2 == 0 { deltaX *= -1 }
                pxX := x + deltaX
                pxY := y + deltaY
                if !(image.Point{pxX, pxY}.In(b)) { continue }
                r, g, b := linearAt(pxX, pxY)
                linearSet(pxX, pxY,
                    RoundClamp(float32(r)+float32(er)*d.Matrix[yy][xx]), ...)
            }
        }
        x = oldX
    }
}
```

The embedding: Go slices are lists and every slice index is checked, a
failed check (`none`) modelling the index-out-of-range panic; Go `int`
coordinates are `Int`; the `float32` diffusion weights and arithmetic
are modelled with exact rationals (the values stored back into `lins`
never influence whether the driver faults, only which colors are
produced); the image is a function from coordinates to `color.RGBA64`
values, with `unpremultAndLinearize`'s output (a `uint16` triple) as a
per-pixel oracle, since the sRGB→linear float transform is out of scope
here.  `none` anywhere models a panic of the driver. -/

/-- Go `image.Rectangle` bounds. -/
structure Rect where
  minX : Int
  minY : Int
  maxX : Int
  maxY : Int
deriving DecidableEq, Repr

/-- `b.Dx()`. -/
def Rect.dx (b : Rect) : Int := b.maxX - b.minX

/-- `b.Dy()`. -/
def Rect.dy (b : Rect) : Int := b.maxY - b.minY

/-- `image.Point{x, y}.In(b)`. -/
def inRect (x y : Int) (b : Rect) : Bool :=
  decide (b.minX ≤ x ∧ x < b.maxX ∧ b.minY ≤ y ∧ y < b.maxY)

/-- A checked Go slice read `l[i]` with an `int` index. -/
def sliceGet {α : Type} (l : List α) (i : Int) : Option α :=
  if i < 0 then none else l[i.toNat]?

/-- A checked Go slice write `l[i] = a`. -/
def sliceSet {α : Type} (l : List α) (i : Int) (a : α) : Option (List α) :=
  if i < 0 then none
  else if i.toNat < l.length then some (l.set i.toNat a) else none

/-- `linearAt`: `lins[y][x]`. -/
def linearAt (lins : List (List LinColor)) (x y : Int) : Option LinColor :=
  match sliceGet lins y with
  | none => none
  | some row => sliceGet row x

/-- `linearSet`: `lins[y][x] = c`. -/
def linearSet (lins : List (List LinColor)) (x y : Int) (c : LinColor) :
    Option (List (List LinColor)) :=
  match sliceGet lins y with
  | none => none
  | some row =>
    match sliceSet row x c with
    | none => none
    | some row' => sliceSet lins y row'

/-- The loop of `CurrentPixel` over the top row: the index before the
first non-zero entry, or half the row length when the row is all
zeros. -/
def cpLoop (row0len : Nat) : List ℚ → Nat → Int
  | [], _ => ((row0len / 2 : Nat) : Int)
  | w :: rest, i => if w ≠ 0 then (i : Int) - 1 else cpLoop row0len rest (i + 1)

/-- `ErrorDiffusionMatrix.CurrentPixel` (error_diffusers.go).  `none`
models the `e[0]` panic on a matrix with no rows. -/
def currentPixel : List (List ℚ) → Option Int
  | [] => none
  | row :: _ => some (cpLoop row.length row 0)

/-- `math.RoundToEven` on the exact-rational model. -/
def roundToEven (q : ℚ) : Int :=
  if q - ⌊q⌋ < 1 / 2 then ⌊q⌋
  else if 1 / 2 < q - ⌊q⌋ then ⌊q⌋ + 1
  else if ⌊q⌋ % 2 = 0 then ⌊q⌋ else ⌊q⌋ + 1

/-- `RoundClamp` (dither.go) on the exact-rational model. -/
def RoundClamp (i : ℚ) : Nat :=
  if i < 0 then 0
  else if 65535 < i then 65535
  else (roundToEven i).toNat

/-- The source/destination image as the driver sees it: bounds, the
pixels as `color.RGBA64` values (`At`/`Set`), and the linearized
channels `unpremultAndLinearize` would produce for each source pixel. -/
structure EDImage where
  bounds : Rect
  px : Int → Int → RGBA64
  lin : Int → Int → LinColor

/-- The Ditherer fields the matrix path uses. -/
structure EDConfig where
  matrix : List (List ℚ)
  serpentine : Bool
  palette : List RGBA64
  linearPalette : List LinColor

/-- The driver's mutable state: the linear working buffer and the image
pixels written so far. -/
structure EDState where
  lins : List (List LinColor)
  px : Int → Int → RGBA64

/-- The values taken by `for v := lo; v < hi; v++`. -/
def intRange (lo hi : Int) : List Int :=
  (List.range (hi - lo).toNat).map fun (i : Nat) => lo + (i : Int)

/-- `lins := make([][][3]uint16, b.Dy())` and the row-allocation loop;
`none` models the `make` panic on a negative size (the row size is only
evaluated when there is at least one row). -/
def mkLins (b : Rect) : Option (List (List LinColor)) :=
  if b.dy < 0 then none
  else if 0 < b.dy ∧ b.dx < 0 then none
  else some (List.replicate b.dy.toNat (List.replicate b.dx.toNat ⟨0, 0, 0⟩))

/-- The pre-fill pass. -/
def prefill (img : EDImage) (lins0 : List (List LinColor)) :
    Option (List (List LinColor)) :=
  (intRange img.bounds.minY img.bounds.maxY).foldlM (fun lins y =>
    (intRange img.bounds.minX img.bounds.maxX).foldlM (fun lins x =>
      linearSet lins x y (img.lin x y)) lins) lins0

/-- The two inner loops diffusing the quantization error of the pixel at
`(x, y)` (already serpentine-reflected) into `lins`. -/
def diffuseError (cfg : EDConfig) (b : Rect) (curPx x y : Int)
    (er eg eb : Int) (lins : List (List LinColor)) :
    Option (List (List LinColor)) :=
  cfg.matrix.enum.foldlM (fun (lins : List (List LinColor)) (yyRow : Nat × List ℚ) =>
    yyRow.2.enum.foldlM (fun (lins : List (List LinColor)) (xxW : Nat × ℚ) =>
      if xxW.2 = 0 then some lins
      else
        let deltaX0 : Int := (xxW.1 : Int) - curPx
        let deltaX : Int :=
          if cfg.serpentine ∧ y.tmod 2 = 0 then -deltaX0 else deltaX0
        let pxX := x + deltaX
        let pxY := y + (yyRow.1 : Int)
        if inRect pxX pxY b then
          match linearAt lins pxX pxY with
          | none => none
          | some c =>
            linearSet lins pxX pxY
              ⟨RoundClamp ((c.r : ℚ) + (er : ℚ) * xxW.2),
               RoundClamp ((c.g : ℚ) + (eg : ℚ) * xxW.2),
               RoundClamp ((c.b : ℚ) + (eb : ℚ) * xxW.2)⟩
        else some lins) lins) lins

/-- The body of the scan for the pixel at column `x` (the
serpentine-reflected column) of row `y`: quantize, write the
premultiplied palette color, diffuse the error. -/
def edPixelAt (cfg : EDConfig) (b : Rect) (curPx : Int) (st : EDState)
    (y x : Int) : Option EDState :=
  match linearAt st.lins x y with
  | none => none
  | some old =>
    let newColorIdx := closestColor old.r old.g old.b cfg.linearPalette
    match sliceGet cfg.palette (newColorIdx : Int) with
    | none => none
    | some palColor =>
      let pm := premult palColor (st.px x y).A
      let px' : Int → Int → RGBA64 :=
        fun u v => if u = x ∧ v = y then pm else st.px u v
      match sliceGet cfg.linearPalette (newColorIdx : Int) with
      | none => none
      | some nw =>
        match diffuseError cfg b curPx x y
            ((old.r : Int) - (nw.r : Int)) ((old.g : Int) - (nw.g : Int))
            ((old.b : Int) - (nw.b : Int)) st.lins with
        | none => none
        | some lins' => some ⟨lins', px'⟩

/-- The body of the scan for one raw loop column: the serpentine
reflection `if d.Serpentine && y%2 == 0 { x = b.Max.X - 1 - x }`
followed by the per-pixel work. -/
def edPixel (cfg : EDConfig) (b : Rect) (curPx : Int) (st : EDState)
    (y xRaw : Int) : Option EDState :=
  edPixelAt cfg b curPx st y
    (if cfg.serpentine ∧ y.tmod 2 = 0 then b.maxX - 1 - xRaw else xRaw)

/-- The scan over all pixels. -/
def edScan (cfg : EDConfig) (b : Rect) (curPx : Int) (st0 : EDState) :
    Option EDState :=
  (intRange b.minY b.maxY).foldlM (fun st y =>
    (intRange b.minX b.maxX).foldlM (fun st x => edPixel cfg b curPx st y x) st) st0

/-- The matrix path of `Dither` (lines 288–374 of dither.go): compute
the current-pixel column, allocate and pre-fill the linear buffer, then
scan.  `none` models a panic anywhere along the way. -/
def ditherMatrixPath (cfg : EDConfig) (img : EDImage) : Option EDState :=
  match currentPixel cfg.matrix with
  | none => none
  | some curPx =>
    match mkLins img.bounds with
    | none => none
    | some lins0 =>
      match prefill img lins0 with
      | none => none
      | some lins1 => edScan cfg img.bounds curPx ⟨lins1, img.px⟩

/-! ### Safety of the driver on origin-anchored images -/

/-- The well-shapedness of the linear working buffer: `h` rows of `w`
cells. -/
def linsShape (h w : Nat) (lins : List (List LinColor)) : Prop :=
  lins.length = h ∧ ∀ row ∈ lins, row.length = w

/-! ## Theorems -/

theorem u32sub_of_le {v1 v2 : Nat} (h : v2 ≤ v1) (h1 : v1 < 2 ^ 32) :
    u32sub v1 v2 = v1 - v2 := by
  unfold u32sub
  have h2 : v2 < 2 ^ 32 := lt_of_le_of_lt h h1
  have : v1 + (2 ^ 32 - v2) = (v1 - v2) + 2 ^ 32 := by omega
  rw [this, Nat.add_mod_right, Nat.mod_eq_of_lt (by omega)]

theorem u32sub_of_lt {v1 v2 : Nat} (h : v1 < v2) (h2 : v2 < 2 ^ 32) :
    u32sub v1 v2 = 2 ^ 32 - (v2 - v1) := by
  unfold u32sub
  have : v1 + (2 ^ 32 - v2) = 2 ^ 32 - (v2 - v1) := by omega
  rw [this, Nat.mod_eq_of_lt (by omega)]

/-- The wrapped square of `2^32 - k` is `k^2` again, for small `k`:
`(2^32 - k)^2 = 2^32·(2^32 - 2k) + k^2`. -/
theorem wrapped_sq {k : Nat} (hk : k ≤ 2 ^ 16) :
    ((2 ^ 32 - k) * (2 ^ 32 - k)) % 2 ^ 32 = k * k % 2 ^ 32 := by
  have hk32 : k ≤ 2 ^ 32 := le_trans hk (by norm_num)
  have h2k : 2 * k ≤ 2 ^ 32 := by omega
  have expand : (2 ^ 32 - k) * (2 ^ 32 - k) = 2 ^ 32 * (2 ^ 32 - 2 * k) + k * k := by
    zify [hk32, h2k]
    ring
  rw [expand, Nat.mul_add_mod]

/-- `sqDiff` on genuine 16-bit inputs computes the floor of the true
squared difference divided by 4, and the wrap-around never distorts it. -/
theorem sqDiff_eq_spec {v1 v2 : Nat} (h1 : v1 < 2 ^ 16) (h2 : v2 < 2 ^ 16) :
    sqDiff v1 v2 = sqDiffSpec v1 v2 := by
  unfold sqDiff sqDiffSpec
  rcases le_or_lt v2 v1 with h | h
  · rw [u32sub_of_le h (lt_trans h1 (by norm_num))]
    have hd : v1 - v2 < 2 ^ 16 := by omega
    have hsq : (v1 - v2) * (v1 - v2) < 2 ^ 32 := by
      calc (v1 - v2) * (v1 - v2) < 2 ^ 16 * 2 ^ 16 := by
            exact Nat.mul_lt_mul_of_lt_of_lt hd hd
        _ = 2 ^ 32 := by norm_num
    rw [Nat.mod_eq_of_lt hsq, Nat.shiftRight_eq_div_pow]
    rw [max_eq_left h, min_eq_right h]
    ring_nf
  · rw [u32sub_of_lt h (lt_trans h2 (by norm_num))]
    have hd : v2 - v1 ≤ 2 ^ 16 := by omega
    rw [wrapped_sq hd]
    have hsq : (v2 - v1) * (v2 - v1) < 2 ^ 32 := by
      have hd' : v2 - v1 < 2 ^ 16 := by omega
      calc (v2 - v1) * (v2 - v1) < 2 ^ 16 * 2 ^ 16 := by
            exact Nat.mul_lt_mul_of_lt_of_lt hd' hd'
        _ = 2 ^ 32 := by norm_num
    rw [Nat.mod_eq_of_lt hsq, Nat.shiftRight_eq_div_pow]
    rw [max_eq_right (le_of_lt h), min_eq_left (le_of_lt h)]
    ring_nf

/-- `sqDiff` of 16-bit inputs is at most `⌊65535² / 4⌋`. -/
theorem sqDiff_le {v1 v2 : Nat} (h1 : v1 < 2 ^ 16) (h2 : v2 < 2 ^ 16) :
    sqDiff v1 v2 ≤ 1073709056 := by
  rw [sqDiff_eq_spec h1 h2]
  unfold sqDiffSpec
  have hd : max v1 v2 - min v1 v2 ≤ 65535 := by
    rcases le_or_lt v1 v2 with h | h <;> omega
  calc (max v1 v2 - min v1 v2) ^ 2 / 4 ≤ 65535 ^ 2 / 4 :=
        Nat.div_le_div_right (Nat.pow_le_pow_left hd 2)
    _ = 1073709056 := by norm_num

theorem getD_append_left {pre l : List LinColor} {j : Nat} (h : j < pre.length)
    (d : LinColor) : (pre ++ l).getD j d = pre.getD j d := by
  simp [List.getD_eq_getElem?_getD, List.getElem?_append, h]

theorem getD_append_len (pre : List LinColor) (c : LinColor) (l : List LinColor)
    (d : LinColor) : (pre ++ c :: l).getD pre.length d = c := by
  rw [List.getD_eq_getElem?_getD, List.getElem?_append_right (le_refl _)]
  simp

/-- Invariant-based specification of the `closestColor` loop.  `pre` is
the already-traversed prefix; the accumulators either are in their
initial state (`pre = []`) or record the first argmin of `pre`. -/
theorem closestLoop_spec (r g b : Nat) (rest : List LinColor) :
    ∀ (pre : List LinColor) (color best : Nat),
    (∀ c ∈ rest, dist r g b c < 2 ^ 32 - 1) →
    ((pre = [] ∧ color = 0 ∧ best = 2 ^ 32 - 1) ∨
      (color < pre.length ∧ best = dist r g b (pre.getD color ⟨0, 0, 0⟩) ∧ 0 < best ∧
        (∀ j, j < pre.length → best ≤ dist r g b (pre.getD j ⟨0, 0, 0⟩)) ∧
        (∀ j, j < color → best < dist r g b (pre.getD j ⟨0, 0, 0⟩)))) →
    pre ++ rest ≠ [] →
    isFirstArgmin (dist r g b) (pre ++ rest) (closestLoop r g b rest pre.length color best) := by
  induction rest with
  | nil =>
    intro pre color best _ hinv hne
    rcases hinv with ⟨hpre, _, _⟩ | ⟨hc, hb, _, hle, hlt⟩
    · simp [hpre] at hne
    · have hloop : closestLoop r g b [] pre.length color best = color := rfl
      rw [List.append_nil, hloop]
      refine ⟨hc, ?_, ?_⟩
      · intro j hj
        have := hle j hj
        omega
      · intro j hj
        have := hlt j hj
        omega
  | cons c rest ih =>
    intro pre color best hbound hinv hne
    have hdc : dist r g b c < 2 ^ 32 - 1 := hbound c (List.mem_cons_self c rest)
    have hsingle : (pre ++ [c] : List LinColor) = pre ++ c :: [] := rfl
    by_cases hlt : dist r g b c < best
    · by_cases hz : dist r g b c = 0
      · -- exact match short-circuits: result is the current index
        have hloop : closestLoop r g b (c :: rest) pre.length color best
            = pre.length := by
          simp only [closestLoop]
          rw [if_pos hlt, if_pos hz]
        rw [hloop]
        refine ⟨by simp, ?_, ?_⟩
        · intro j hj
          rw [getD_append_len]
          omega
        · intro j hj
          rw [getD_append_len, getD_append_left hj]
          rcases hinv with ⟨hpre, _, _⟩ | ⟨_, _, _, hle, _⟩
          · rw [hpre] at hj; simp at hj
          · have := hle j hj
            omega
      · -- strict improvement: update the accumulators and continue
        have hloop : closestLoop r g b (c :: rest) pre.length color best
            = closestLoop r g b rest (pre.length + 1) pre.length (dist r g b c) := by
          simp only [closestLoop]
          rw [if_pos hlt, if_neg hz]
        have happ : pre ++ c :: rest = (pre ++ [c]) ++ rest := by simp
        have hlen : pre.length + 1 = (pre ++ [c]).length := by simp
        rw [hloop, happ, hlen]
        apply ih (pre ++ [c]) pre.length (dist r g b c)
          (fun x hx => hbound x (List.mem_cons_of_mem c hx))
        · right
          refine ⟨by simp, ?_, Nat.pos_of_ne_zero hz, ?_, ?_⟩
          · rw [hsingle, getD_append_len]
          · intro j hj
            simp only [List.length_append, List.length_cons, List.length_nil] at hj
            rcases Nat.lt_or_ge j pre.length with hj' | hj'
            · rw [getD_append_left hj']
              rcases hinv with ⟨hpre, _, _⟩ | ⟨_, _, _, hle, _⟩
              · rw [hpre] at hj'; simp at hj'
              · have := hle j hj'
                omega
            · have hj'' : j = pre.length := by omega
              rw [hj'', hsingle, getD_append_len]
          · intro j hj
            rw [getD_append_left hj]
            rcases hinv with ⟨hpre, _, _⟩ | ⟨_, _, _, hle, _⟩
            · rw [hpre] at hj; simp at hj
            · have := hle j hj
              omega
        · simp
    · -- no improvement: keep the accumulators and continue
      have hloop : closestLoop r g b (c :: rest) pre.length color best
          = closestLoop r g b rest (pre.length + 1) color best := by
        simp only [closestLoop]
        rw [if_neg hlt]
      -- the initial `best` always beats the very first distance, so the
      -- invariant cannot still be in its initial state here
      rcases hinv with ⟨_, _, hb⟩ | ⟨hc, hb, hpos, hle, hstrict⟩
      · omega
      · have happ : pre ++ c :: rest = (pre ++ [c]) ++ rest := by simp
        have hlen : pre.length + 1 = (pre ++ [c]).length := by simp
        rw [hloop, happ, hlen]
        apply ih (pre ++ [c]) color best
          (fun x hx => hbound x (List.mem_cons_of_mem c hx))
        · right
          refine ⟨by simp [Nat.lt_succ_of_lt hc], ?_, hpos, ?_, ?_⟩
          · rw [getD_append_left hc]
            exact hb
          · intro j hj
            simp only [List.length_append, List.length_cons, List.length_nil] at hj
            rcases Nat.lt_or_ge j pre.length with hj' | hj'
            · rw [getD_append_left hj']
              exact hle j hj'
            · have hj'' : j = pre.length := by omega
              rw [hj'', hsingle, getD_append_len]
              omega
          · intro j hj
            rw [getD_append_left (lt_trans hj hc)]
            exact hstrict j hj
        · simp

theorem getD_mem {L : List LinColor} {j : Nat} (h : j < L.length) (d : LinColor) :
    L.getD j d ∈ L := by
  rw [List.getD_eq_getElem L d h]
  exact List.getElem_mem h

/-- On 16-bit inputs the weighted distance stays below `2^32 - 1`
(so the `uint32` cast of the `uint64` sum cannot wrap, and the initial
`best = math.MaxUint32` is always beaten by the first palette entry). -/
theorem weightedDist_lt {r g b : Nat} {c : LinColor}
    (hr : r < 2 ^ 16) (hg : g < 2 ^ 16) (hb : b < 2 ^ 16)
    (hcr : c.r < 2 ^ 16) (hcg : c.g < 2 ^ 16) (hcb : c.b < 2 ^ 16) :
    weightedDist r g b c < 2 ^ 32 - 1 := by
  unfold weightedDist
  have h1 : 1063 * sqDiff r c.r / 5000 ≤ 1063 * 1073709056 / 5000 :=
    Nat.div_le_div_right (Nat.mul_le_mul_left _ (sqDiff_le hr hcr))
  have h2 : 447 * sqDiff g c.g / 625 ≤ 447 * 1073709056 / 625 :=
    Nat.div_le_div_right (Nat.mul_le_mul_left _ (sqDiff_le hg hcg))
  have h3 : 361 * sqDiff b c.b / 5000 ≤ 361 * 1073709056 / 5000 :=
    Nat.div_le_div_right (Nat.mul_le_mul_left _ (sqDiff_le hb hcb))
  have : (1063 * 1073709056 / 5000 : Nat) + 447 * 1073709056 / 625
      + 361 * 1073709056 / 5000 < 2 ^ 32 - 1 := by norm_num
  omega

theorem dist_eq_weightedDist {r g b : Nat} {c : LinColor}
    (hr : r < 2 ^ 16) (hg : g < 2 ^ 16) (hb : b < 2 ^ 16)
    (hcr : c.r < 2 ^ 16) (hcg : c.g < 2 ^ 16) (hcb : c.b < 2 ^ 16) :
    dist r g b c = weightedDist r g b c := by
  unfold dist
  have := weightedDist_lt hr hg hb hcr hcg hcb
  exact Nat.mod_eq_of_lt (by omega)

/-- **C1.** For every non-empty palette (in its linear-RGB form, the list
the Go loop ranges over) and every linear RGB input triple with each
channel in `[0, 65535]`, `closestColor` returns the index of a palette
entry that minimises the weighted distance
`d² = 1063·sqDiff(r,Pr)/5000 + 447·sqDiff(g,Pg)/625 + 361·sqDiff(b,Pb)/5000`
over all palette entries; among entries attaining the minimum the
smallest index is returned; and if some entry has distance exactly `0`,
the first such index is returned (the loop short-circuits). -/
theorem closestColor_first_argmin (lp : List LinColor) (r g b : Nat)
    (hne : lp ≠ []) (hr : r ≤ 65535) (hg : g ≤ 65535) (hb : b ≤ 65535)
    (hpal : ∀ c ∈ lp, c.r ≤ 65535 ∧ c.g ≤ 65535 ∧ c.b ≤ 65535) :
    closestColor r g b lp < lp.length ∧
    (∀ j, j < lp.length →
      weightedDist r g b (lp.getD (closestColor r g b lp) ⟨0, 0, 0⟩)
        ≤ weightedDist r g b (lp.getD j ⟨0, 0, 0⟩)) ∧
    (∀ j, j < closestColor r g b lp →
      weightedDist r g b (lp.getD (closestColor r g b lp) ⟨0, 0, 0⟩)
        < weightedDist r g b (lp.getD j ⟨0, 0, 0⟩)) ∧
    (∀ j, j < lp.length → weightedDist r g b (lp.getD j ⟨0, 0, 0⟩) = 0 →
      closestColor r g b lp ≤ j ∧
      weightedDist r g b (lp.getD (closestColor r g b lp) ⟨0, 0, 0⟩) = 0) := by
  have hdist : ∀ c ∈ lp, dist r g b c = weightedDist r g b c ∧
      dist r g b c < 2 ^ 32 - 1 := by
    intro c hc
    obtain ⟨h1, h2, h3⟩ := hpal c hc
    have heq := dist_eq_weightedDist (r := r) (g := g) (b := b) (c := c)
      (by omega) (by omega) (by omega) (by omega) (by omega) (by omega)
    have hlt := weightedDist_lt (c := c) (r := r) (g := g) (b := b)
      (by omega) (by omega) (by omega) (by omega) (by omega) (by omega)
    exact ⟨heq, heq ▸ hlt⟩
  have hspec := closestLoop_spec r g b lp [] 0 (2 ^ 32 - 1)
    (fun c hc => (hdist c hc).2) (Or.inl ⟨rfl, rfl, rfl⟩) (by simpa using hne)
  rw [List.nil_append] at hspec
  obtain ⟨hres, hle, hstrict⟩ := hspec
  have hcc : closestColor r g b lp = closestLoop r g b lp 0 0 (2 ^ 32 - 1) := rfl
  rw [show (List.nil : List LinColor).length = 0 from rfl] at hres hle hstrict
  rw [← hcc] at hres hle hstrict
  have hwd : ∀ j, j < lp.length →
      dist r g b (lp.getD j ⟨0, 0, 0⟩) = weightedDist r g b (lp.getD j ⟨0, 0, 0⟩) :=
    fun j hj => (hdist _ (getD_mem hj _)).1
  refine ⟨hres, ?_, ?_, ?_⟩
  · intro j hj
    have := hle j hj
    rwa [hwd _ hres, hwd _ hj] at this
  · intro j hj
    have := hstrict j hj
    rwa [hwd _ hres, hwd _ (lt_trans hj hres)] at this
  · intro j hj hz
    have hres_le : closestColor r g b lp ≤ j := by
      by_contra hcon
      have := hstrict j (by omega)
      rw [hwd _ hres, hwd _ hj] at this
      omega
    have h0 : weightedDist r g b (lp.getD (closestColor r g b lp) ⟨0, 0, 0⟩) = 0 := by
      have := hle j hj
      rw [hwd _ hres, hwd _ hj] at this
      omega
    exact ⟨hres_le, h0⟩

/-- Witness for `closestColor_first_argmin` at a concrete palette and
input: palette `[(100,100,100), (1,2,3), (1,2,3)]`, input `(1,2,3)`. -/
theorem closestColor_first_argmin_witness :
    ([⟨100, 100, 100⟩, ⟨1, 2, 3⟩, ⟨1, 2, 3⟩] : List LinColor) ≠ [] ∧
    (closestColor 1 2 3 [⟨100, 100, 100⟩, ⟨1, 2, 3⟩, ⟨1, 2, 3⟩]
        < ([⟨100, 100, 100⟩, ⟨1, 2, 3⟩, ⟨1, 2, 3⟩] : List LinColor).length ∧
      (∀ j, j < ([⟨100, 100, 100⟩, ⟨1, 2, 3⟩, ⟨1, 2, 3⟩] : List LinColor).length →
        weightedDist 1 2 3 (([⟨100, 100, 100⟩, ⟨1, 2, 3⟩, ⟨1, 2, 3⟩] : List LinColor).getD
            (closestColor 1 2 3 [⟨100, 100, 100⟩, ⟨1, 2, 3⟩, ⟨1, 2, 3⟩]) ⟨0, 0, 0⟩)
          ≤ weightedDist 1 2 3
            (([⟨100, 100, 100⟩, ⟨1, 2, 3⟩, ⟨1, 2, 3⟩] : List LinColor).getD j ⟨0, 0, 0⟩)) ∧
      (∀ j, j < closestColor 1 2 3 [⟨100, 100, 100⟩, ⟨1, 2, 3⟩, ⟨1, 2, 3⟩] →
        weightedDist 1 2 3 (([⟨100, 100, 100⟩, ⟨1, 2, 3⟩, ⟨1, 2, 3⟩] : List LinColor).getD
            (closestColor 1 2 3 [⟨100, 100, 100⟩, ⟨1, 2, 3⟩, ⟨1, 2, 3⟩]) ⟨0, 0, 0⟩)
          < weightedDist 1 2 3
            (([⟨100, 100, 100⟩, ⟨1, 2, 3⟩, ⟨1, 2, 3⟩] : List LinColor).getD j ⟨0, 0, 0⟩)) ∧
      (∀ j, j < ([⟨100, 100, 100⟩, ⟨1, 2, 3⟩, ⟨1, 2, 3⟩] : List LinColor).length →
        weightedDist 1 2 3
            (([⟨100, 100, 100⟩, ⟨1, 2, 3⟩, ⟨1, 2, 3⟩] : List LinColor).getD j ⟨0, 0, 0⟩) = 0 →
        closestColor 1 2 3 [⟨100, 100, 100⟩, ⟨1, 2, 3⟩, ⟨1, 2, 3⟩] ≤ j ∧
        weightedDist 1 2 3 (([⟨100, 100, 100⟩, ⟨1, 2, 3⟩, ⟨1, 2, 3⟩] : List LinColor).getD
            (closestColor 1 2 3 [⟨100, 100, 100⟩, ⟨1, 2, 3⟩, ⟨1, 2, 3⟩]) ⟨0, 0, 0⟩) = 0)) :=
  ⟨by decide,
    closestColor_first_argmin [⟨100, 100, 100⟩, ⟨1, 2, 3⟩, ⟨1, 2, 3⟩] 1 2 3
      (by decide) (by decide) (by decide) (by decide) (by decide)⟩

/-- **C9.** For every pair of 16-bit channel values, `sqDiff` equals the
floor of the true signed difference squared, divided by 4: the unsigned
32-bit wrap-around subtraction followed by squaring modulo `2^32` and the
right-shift by 2 never distort the result, and the result fits in 32
bits. -/
theorem sqDiff_no_distortion (a b : Nat) (ha : a ≤ 65535) (hb : b ≤ 65535) :
    sqDiff a b = (max a b - min a b) ^ 2 / 4 ∧ sqDiff a b < 2 ^ 32 := by
  have ha' : a < 2 ^ 16 := by omega
  have hb' : b < 2 ^ 16 := by omega
  refine ⟨sqDiff_eq_spec ha' hb', ?_⟩
  have := sqDiff_le ha' hb'
  omega

/-- Witness for `sqDiff_no_distortion` at `a = 3`, `b = 65535`. -/
theorem sqDiff_no_distortion_witness :
    (3 ≤ 65535 ∧ 65535 ≤ 65535) ∧
    (sqDiff 3 65535 = (max 3 65535 - min 3 65535) ^ 2 / 4 ∧ sqDiff 3 65535 < 2 ^ 32) :=
  ⟨⟨by decide, by decide⟩, sqDiff_no_distortion 3 65535 (by decide) (by decide)⟩

section SamePalette

variable {α : Type} [DecidableEq α]

theorem mapGet_set_self (m : List (α × Int)) (k : α) (v : Int) :
    mapGet (mapSet m k v) k = some v := by
  induction m with
  | nil => simp [mapSet, mapGet]
  | cons e m ih =>
    by_cases h : e.1 = k
    · simp [mapSet, h, mapGet]
    · simp [mapSet, h, mapGet, ih]

theorem mapGet_set_ne (m : List (α × Int)) {k k' : α} (v : Int) (h : k' ≠ k) :
    mapGet (mapSet m k v) k' = mapGet m k' := by
  have hkk : ¬(k = k') := fun hh => h hh.symm
  induction m with
  | nil => simp [mapSet, mapGet, hkk]
  | cons e m ih =>
    by_cases he : e.1 = k
    · have he' : ¬(e.1 = k') := fun hh => hkk (he ▸ hh)
      simp [mapSet, he, mapGet, hkk, he']
    · by_cases he' : e.1 = k'
      · simp [mapSet, he, mapGet, he', h]
      · simp [mapSet, he, mapGet, he', h, ih]

theorem mapGet_eq_none_iff (m : List (α × Int)) (k : α) :
    mapGet m k = none ↔ k ∉ m.map Prod.fst := by
  induction m with
  | nil => simp [mapGet]
  | cons e m ih =>
    by_cases h : e.1 = k
    · simp [mapGet, h]
    · have h' : ¬(k = e.1) := fun hh => h hh.symm
      simp [mapGet, h, ih, h']

theorem mapGet_mem {m : List (α × Int)} {k : α} {v : Int}
    (h : mapGet m k = some v) : (k, v) ∈ m := by
  induction m with
  | nil => simp [mapGet] at h
  | cons e m ih =>
    rw [show mapGet (e :: m) k = if e.1 = k then some e.2 else mapGet m k from rfl] at h
    by_cases he : e.1 = k
    · rw [if_pos he] at h
      have hv : e.2 = v := by
        injection h
      have : (k, v) = e := by
        obtain ⟨a, b⟩ := e
        simp only [Prod.mk.injEq]
        simp only at he hv
        exact ⟨he.symm, hv.symm⟩
      rw [this]
      exact List.mem_cons_self _ _
    · rw [if_neg he] at h
      exact List.mem_cons_of_mem _ (ih h)

theorem mem_mapSet {m : List (α × Int)} {k : α} {v : Int} {e : α × Int}
    (h : e ∈ mapSet m k v) : e ∈ m ∨ e = (k, v) := by
  induction m with
  | nil => simp [mapSet] at h; simp [h]
  | cons f m ih =>
    by_cases hf : f.1 = k
    · simp [mapSet, hf] at h
      rcases h with h | h
      · right; simp [h]
      · left; simp [h]
    · simp [mapSet, hf] at h
      rcases h with h | h
      · left; simp [h]
      · rcases ih h with h' | h'
        · left; simp [h']
        · right; exact h'

theorem mem_mapDel {m : List (α × Int)} {k : α} {e : α × Int}
    (h : e ∈ mapDel m k) : e ∈ m := by
  induction m with
  | nil => simp [mapDel] at h
  | cons f m ih =>
    by_cases hf : f.1 = k
    · simp [mapDel, hf] at h
      simp [h]
    · simp [mapDel, hf] at h
      rcases h with h | h
      · simp [h]
      · simp [ih h]

theorem keys_mapSet_subset {m : List (α × Int)} {k : α} {v : Int} {a : α}
    (h : a ∈ (mapSet m k v).map Prod.fst) : a ∈ m.map Prod.fst ∨ a = k := by
  simp only [List.mem_map] at h
  obtain ⟨e, he, hea⟩ := h
  rcases mem_mapSet he with h' | h'
  · left; exact List.mem_map.2 ⟨e, h', hea⟩
  · right; rw [← hea, h']

theorem nodup_keys_mapSet {m : List (α × Int)} (k : α) (v : Int)
    (h : (m.map Prod.fst).Nodup) : ((mapSet m k v).map Prod.fst).Nodup := by
  induction m with
  | nil => simp [mapSet]
  | cons e m ih =>
    simp only [List.map_cons, List.nodup_cons] at h
    by_cases he : e.1 = k
    · simp only [mapSet, he, if_true, List.map_cons, List.nodup_cons]
      exact ⟨he ▸ h.1, h.2⟩
    · simp only [mapSet, he, if_false, List.map_cons, List.nodup_cons]
      refine ⟨fun hmem => ?_, ih h.2⟩
      rcases keys_mapSet_subset hmem with h' | h'
      · exact h.1 h'
      · exact he h'

theorem keys_mapDel_sublist (m : List (α × Int)) (k : α) :
    ((mapDel m k).map Prod.fst).Sublist (m.map Prod.fst) := by
  induction m with
  | nil => simp [mapDel]
  | cons e m ih =>
    by_cases he : e.1 = k
    · simp only [mapDel, he, if_true, List.map_cons]
      exact (List.sublist_cons_self _ _)
    · simp only [mapDel, he, if_false, List.map_cons]
      exact ih.cons₂ _

theorem nodup_keys_mapDel {m : List (α × Int)} (k : α)
    (h : (m.map Prod.fst).Nodup) : ((mapDel m k).map Prod.fst).Nodup :=
  (keys_mapDel_sublist m k).nodup h

theorem mapGet_del_self {m : List (α × Int)} (k : α)
    (h : (m.map Prod.fst).Nodup) : mapGet (mapDel m k) k = none := by
  induction m with
  | nil => simp [mapDel, mapGet]
  | cons e m ih =>
    simp only [List.map_cons, List.nodup_cons] at h
    by_cases he : e.1 = k
    · simp only [mapDel, he, if_true]
      rw [mapGet_eq_none_iff]
      exact he ▸ h.1
    · simp only [mapDel, he, if_false, mapGet, he, if_false]
      exact ih h.2

theorem mapGet_del_ne (m : List (α × Int)) {k k' : α} (h : k' ≠ k) :
    mapGet (mapDel m k) k' = mapGet m k' := by
  induction m with
  | nil => simp [mapDel]
  | cons e m ih =>
    by_cases he : e.1 = k
    · have hkk : ¬(k = k') := fun hh => h hh.symm
      have he' : ¬(e.1 = k') := by
        rw [he]
        exact hkk
      simp [mapDel, he, mapGet, he', hkk]
    · by_cases he' : e.1 = k'
      · simp [mapDel, he, mapGet, he', h]
      · simp [mapDel, he, mapGet, he', h, ih]

theorem mapCount_set (m : List (α × Int)) (k k' : α) (v : Int) :
    mapCount (mapSet m k v) k' = if k' = k then v else mapCount m k' := by
  by_cases h : k' = k
  · simp [mapCount, h, mapGet_set_self]
  · simp [mapCount, h, mapGet_set_ne m v h]

theorem mapCount_nonneg {m : List (α × Int)} (hg : goodMap m) (k : α) :
    0 ≤ mapCount m k := by
  unfold mapCount
  cases h : mapGet m k with
  | none => simp
  | some v =>
    have := hg.2 _ (mapGet_mem h)
    simp only [Option.getD_some]
    omega

theorem mapCount_pos_of_get {m : List (α × Int)} (hg : goodMap m) {k : α} {v : Int}
    (h : mapGet m k = some v) : 1 ≤ v := hg.2 _ (mapGet_mem h)

omit [DecidableEq α] in
theorem goodMap_nil : goodMap ([] : List (α × Int)) :=
  ⟨List.nodup_nil, by simp⟩

theorem goodMap_set_of_pos {m : List (α × Int)} (hg : goodMap m) (k : α) {v : Int}
    (hv : 1 ≤ v) : goodMap (mapSet m k v) := by
  refine ⟨nodup_keys_mapSet k v hg.1, ?_⟩
  intro e he
  rcases mem_mapSet he with h | h
  · exact hg.2 e h
  · rw [h]
    exact hv

/-- Specification of the first loop of `samePalette`: starting from a
well-formed map, it stays well-formed and adds the multiset of `p1` to
the counts. -/
theorem buildLoop_spec (p1 : List α) :
    ∀ m, goodMap m →
      goodMap (p1.foldl (fun diff x => mapSet diff x ((mapGet diff x).getD 0 + 1)) m) ∧
      ∀ k, mapCount (p1.foldl (fun diff x => mapSet diff x ((mapGet diff x).getD 0 + 1)) m) k
          = mapCount m k + (p1.count k : Int) := by
  induction p1 with
  | nil =>
    intro m hg
    exact ⟨hg, fun k => by simp⟩
  | cons x p1 ih =>
    intro m hg
    have hnn : 0 ≤ mapCount m x := mapCount_nonneg hg x
    have hv : 1 ≤ (mapGet m x).getD 0 + 1 := by
      unfold mapCount at hnn
      omega
    have hg' := goodMap_set_of_pos hg x hv
    obtain ⟨hgood, hcount⟩ := ih _ hg'
    refine ⟨hgood, ?_⟩
    intro k
    rw [List.foldl_cons, hcount k, mapCount_set]
    have hcc : mapCount m x = (mapGet m x).getD 0 := rfl
    by_cases hkx : k = x
    · subst hkx
      rw [if_pos rfl, List.count_cons_self]
      push_cast
      rw [← hcc]
      ring
    · rw [if_neg hkx, List.count_cons_of_ne hkx]

theorem buildDiff_spec (p1 : List α) :
    goodMap (buildDiff p1) ∧ ∀ k, mapCount (buildDiff p1) k = (p1.count k : Int) := by
  obtain ⟨hg, hc⟩ := buildLoop_spec p1 [] goodMap_nil
  refine ⟨hg, fun k => ?_⟩
  rw [buildDiff, hc k]
  simp [mapCount, mapGet]

/-- The `diff[y] -= 1; delete(diff, y)` branch of the second loop:
the count of `y` drops to zero (the entry is gone), the others are
unchanged, and well-formedness is preserved. -/
theorem consume_del_branch {m : List (α × Int)} (hg : goodMap m) (y : α) (v : Int) :
    goodMap (mapDel (mapSet m y (v - 1)) y) ∧
    ∀ k, mapCount (mapDel (mapSet m y (v - 1)) y) k
        = if k = y then 0 else mapCount m k := by
  have hnodup : ((mapSet m y (v - 1)).map Prod.fst).Nodup := nodup_keys_mapSet _ _ hg.1
  constructor
  · refine ⟨nodup_keys_mapDel _ hnodup, ?_⟩
    intro e he
    rcases mem_mapSet (mem_mapDel he) with h | h
    · exact hg.2 e h
    · -- the freshly written entry for `y` cannot survive its own deletion
      exfalso
      have hkey : e.1 ∈ (mapDel (mapSet m y (v - 1)) y).map Prod.fst :=
        List.mem_map.2 ⟨e, he, rfl⟩
      have hnone := mapGet_del_self (m := mapSet m y (v - 1)) y hnodup
      rw [mapGet_eq_none_iff] at hnone
      rw [h] at hkey
      exact hnone hkey
  · intro k
    by_cases hk : k = y
    · subst hk
      rw [if_pos rfl]
      unfold mapCount
      rw [mapGet_del_self _ hnodup]
      rfl
    · rw [if_neg hk]
      unfold mapCount
      rw [mapGet_del_ne _ hk, mapGet_set_ne _ _ hk]

/-- The plain `diff[y] -= 1` branch of the second loop (no deletion). -/
theorem consume_set_branch {m : List (α × Int)} (hg : goodMap m) (y : α) {v : Int}
    (hv : 1 ≤ v - 1) :
    goodMap (mapSet m y (v - 1)) ∧
    ∀ k, mapCount (mapSet m y (v - 1)) k = if k = y then v - 1 else mapCount m k := by
  refine ⟨goodMap_set_of_pos hg y hv, fun k => ?_⟩
  rw [mapCount_set]

/-- Soundness of the second loop of `samePalette`: when it runs to the
end, `p2`'s multiset was contained in the map's, and the final map holds
the difference. -/
theorem consumeLoop_sound (p2 : List α) :
    ∀ m m', goodMap m → consumeLoop p2 m = some m' →
      goodMap m' ∧
      ∀ k, (p2.count k : Int) ≤ mapCount m k ∧
        mapCount m' k = mapCount m k - p2.count k := by
  induction p2 with
  | nil =>
    intro m m' hg h
    simp only [consumeLoop, Option.some.injEq] at h
    subst h
    refine ⟨hg, fun k => ⟨?_, by simp⟩⟩
    simpa using mapCount_nonneg hg k
  | cons y p2 ih =>
    intro m m' hg h
    cases hy : mapGet m y with
    | none =>
      simp [consumeLoop, hy] at h
    | some v =>
      simp only [consumeLoop, hy] at h
      have hv : 1 ≤ v := mapCount_pos_of_get hg hy
      have hmy : mapCount m y = v := by
        simp [mapCount, hy]
      by_cases hz : v - 1 = 0
      · rw [if_pos hz] at h
        obtain ⟨hg1, hc1⟩ := consume_del_branch hg y v
        obtain ⟨hg', hrel⟩ := ih _ _ hg1 h
        refine ⟨hg', fun k => ?_⟩
        obtain ⟨hle, heq⟩ := hrel k
        rw [hc1 k] at hle heq
        by_cases hk : k = y
        · subst hk
          rw [if_pos rfl] at hle heq
          have hnn : (0 : Int) ≤ (p2.count k : Int) := Int.natCast_nonneg _
          rw [List.count_cons_self]
          push_cast
          omega
        · rw [if_neg hk] at hle heq
          rw [List.count_cons_of_ne hk]
          exact ⟨hle, heq⟩
      · rw [if_neg hz] at h
        have hv1 : 1 ≤ v - 1 := by omega
        obtain ⟨hg1, hc1⟩ := consume_set_branch hg y hv1
        obtain ⟨hg', hrel⟩ := ih _ _ hg1 h
        refine ⟨hg', fun k => ?_⟩
        obtain ⟨hle, heq⟩ := hrel k
        rw [hc1 k] at hle heq
        by_cases hk : k = y
        · subst hk
          rw [if_pos rfl] at hle heq
          rw [List.count_cons_self]
          push_cast
          omega
        · rw [if_neg hk] at hle heq
          rw [List.count_cons_of_ne hk]
          exact ⟨hle, heq⟩

/-- Completeness of the second loop: when `p2`'s multiset is contained in
the map's counts, the loop never bails out. -/
theorem consumeLoop_complete (p2 : List α) :
    ∀ m, goodMap m → (∀ k, (p2.count k : Int) ≤ mapCount m k) →
      ∃ m', consumeLoop p2 m = some m' := by
  induction p2 with
  | nil =>
    intro m _ _
    exact ⟨m, rfl⟩
  | cons y p2 ih =>
    intro m hg hle
    have hy1 : 1 ≤ mapCount m y := by
      have h2 := hle y
      rw [List.count_cons_self] at h2
      push_cast at h2
      have h3 : (0 : Int) ≤ (p2.count y : Int) := Int.natCast_nonneg _
      omega
    cases hy : mapGet m y with
    | none =>
      exfalso
      rw [show mapCount m y = 0 by simp [mapCount, hy]] at hy1
      omega
    | some v =>
      have hmy : mapCount m y = v := by
        simp [mapCount, hy]
      have hcnt : ∀ k, (p2.count k : Int)
          ≤ (if k = y then v - 1 else mapCount m k) := by
        intro k
        by_cases hk : k = y
        · subst hk
          rw [if_pos rfl]
          have := hle k
          rw [List.count_cons_self] at this
          push_cast at this
          omega
        · rw [if_neg hk]
          have := hle k
          rw [List.count_cons_of_ne hk] at this
          exact this
      by_cases hz : v - 1 = 0
      · obtain ⟨hg1, hc1⟩ := consume_del_branch hg y v
        have : ∀ k, (p2.count k : Int) ≤ mapCount (mapDel (mapSet m y (v - 1)) y) k := by
          intro k
          rw [hc1 k]
          have := hcnt k
          by_cases hk : k = y
          · subst hk
            rw [if_pos rfl] at this ⊢
            omega
          · rw [if_neg hk] at this ⊢
            exact this
        obtain ⟨m', hm'⟩ := ih _ hg1 this
        refine ⟨m', ?_⟩
        simp only [consumeLoop, hy, if_pos hz]
        exact hm'
      · have hv1 : 1 ≤ v - 1 := by
          have := mapCount_pos_of_get hg hy
          omega
        obtain ⟨hg1, hc1⟩ := consume_set_branch hg y hv1
        have : ∀ k, (p2.count k : Int) ≤ mapCount (mapSet m y (v - 1)) k := by
          intro k
          rw [hc1 k]
          exact hcnt k
        obtain ⟨m', hm'⟩ := ih _ hg1 this
        refine ⟨m', ?_⟩
        simp only [consumeLoop, hy, if_neg hz]
        exact hm'

/-- For a well-formed map (all stored counts at least 1, zeros deleted),
`len(diff) == 0` is equivalent to all counts being zero. -/
theorem isEmpty_iff_counts_zero {m : List (α × Int)} (hg : goodMap m) :
    m.isEmpty = true ↔ ∀ k, mapCount m k = 0 := by
  cases m with
  | nil =>
    simp [mapCount, mapGet]
  | cons e m =>
    simp only [List.isEmpty_cons]
    constructor
    · intro h
      cases h
    · intro hall
      exfalso
      have hget : mapGet (e :: m) e.1 = some e.2 := by
        simp [mapGet]
      have h2 := hall e.1
      rw [mapCount, hget] at h2
      simp only [Option.getD_some] at h2
      have := hg.2 e (List.mem_cons_self _ _)
      omega

/-- **C10.** `samePalette` decides multiset equality: it returns `true`
on every permutation of a palette (in particular its reversal), and it
returns `true` only when the two palettes hold the same colors with the
same multiplicities. -/
theorem samePalette_iff_perm (p1 p2 : List α) :
    samePalette p1 p2 = true ↔ p1.Perm p2 := by
  unfold samePalette
  by_cases hlen : p1.length = p2.length
  · rw [if_neg (show ¬(p1.length ≠ p2.length) from fun hh => hh hlen)]
    obtain ⟨hgb, hcb⟩ := buildDiff_spec p1
    cases hcons : consumeLoop p2 (buildDiff p1) with
    | none =>
      constructor
      · intro h
        cases h
      · intro hperm
        exfalso
        have hle : ∀ k, (p2.count k : Int) ≤ mapCount (buildDiff p1) k := by
          intro k
          rw [hcb k]
          have := (List.perm_iff_count.1 hperm) k
          omega
        obtain ⟨m', hm'⟩ := consumeLoop_complete p2 _ hgb hle
        rw [hcons] at hm'
        cases hm'
    | some m' =>
      obtain ⟨hg', hrel⟩ := consumeLoop_sound p2 _ _ hgb hcons
      rw [isEmpty_iff_counts_zero hg']
      constructor
      · intro hall
        refine List.perm_iff_count.2 fun a => ?_
        obtain ⟨hle, heq⟩ := hrel a
        have := hall a
        rw [heq, hcb a] at this
        omega
      · intro hperm k
        obtain ⟨hle, heq⟩ := hrel k
        rw [heq, hcb k]
        have := (List.perm_iff_count.1 hperm) k
        omega
  · rw [if_pos hlen]
    constructor
    · intro h
      cases h
    · intro hperm
      exact absurd hperm.length_eq hlen

end SamePalette

theorem premult_channel {ch a : Nat} (hch : ch ≤ 65535) (ha : a ≤ 65535) :
    ch * a % 2 ^ 32 / 65535 % 2 ^ 16 = ch * a / 65535 := by
  have h1 : ch * a < 2 ^ 32 :=
    lt_of_le_of_lt (Nat.mul_le_mul hch ha) (by norm_num)
  rw [Nat.mod_eq_of_lt h1]
  have h2 : ch * a / 65535 ≤ 65535 := by
    have hm : ch * a ≤ 65535 * 65535 := Nat.mul_le_mul hch ha
    calc ch * a / 65535 ≤ 65535 * 65535 / 65535 := Nat.div_le_div_right hm
      _ = 65535 := by norm_num
  exact Nat.mod_eq_of_lt (by omega)

/-- **C7.** For every quantized palette color and source alpha (both in
their 16-bit ranges), `premult` returns fully transparent black when the
source alpha is 0, the color unchanged when the source alpha is 65535,
and otherwise the color with each RGB channel replaced by
`channel·a/65535` — the 32-bit intermediate never overflows and the
`uint16` casts never truncate — with the alpha field set to the source
alpha. -/
theorem premult_eq_spec (c : RGBA64) (a : Nat) (ha : a ≤ 65535)
    (hR : c.R ≤ 65535) (hG : c.G ≤ 65535) (hB : c.B ≤ 65535) :
    premult c a = premultSpec c a := by
  unfold premult premultSpec
  by_cases h0 : a = 0
  · rw [if_pos h0, if_pos h0]
  · rw [if_neg h0, if_neg h0]
    by_cases h1 : a = 65535
    · rw [if_pos h1, if_pos h1]
    · rw [if_neg h1, if_neg h1]
      have hmod : a % 2 ^ 16 = a := Nat.mod_eq_of_lt (by omega)
      rw [premult_channel hR ha, premult_channel hG ha, premult_channel hB ha, hmod]

/-- Witness for `premult_eq_spec` at `c = (30000, 200, 65535, 65535)`,
`a = 1000`. -/
theorem premult_eq_spec_witness :
    (1000 ≤ 65535 ∧ 30000 ≤ 65535 ∧ 200 ≤ 65535 ∧ 65535 ≤ 65535) ∧
    premult ⟨30000, 200, 65535, 65535⟩ 1000 = premultSpec ⟨30000, 200, 65535, 65535⟩ 1000 :=
  ⟨⟨by decide, by decide, by decide, by decide⟩,
    premult_eq_spec ⟨30000, 200, 65535, 65535⟩ 1000
      (by decide) (by decide) (by decide) (by decide)⟩

/-- **C3 (amended).** The configuration-validation fault: `invalid`
returns `true` — and `Dither`/`DitherCopy` raise the validation panic at
entry — exactly when the number of populated selectors among
`{Matrix, Mapper, Special}` is not one, or `Special` is populated.
(With a valid configuration other faults can still occur later; see the
accompanying counterexample and C2/C8.) -/
theorem invalid_iff (d : DitherConfig) :
    invalid d = true ↔ (selectorCount d ≠ 1 ∨ d.special ≠ 0) := by
  obtain ⟨m, x, s⟩ := d
  by_cases hs : s = 0
  · subst hs
    cases m <;> cases x <;> simp [invalid, selectorCount]
  · cases m <;> cases x <;> simp [invalid, selectorCount, hs, bne, beq_iff_eq]

/-- **C3 counterexample.** A valid configuration — only `Matrix` set, so
`invalid` returns `false` — still ends in a fault: with an
`*image.Paletted` source whose palette equals the Ditherer's, the
destination is left as the nil interface (`none`), which `Dither` then
dereferences. So "faults iff the configuration is invalid" is false. -/
theorem valid_config_still_faults :
    invalid ⟨false, true, 0⟩ = false ∧
    ditherEntry ⟨false, true, 0⟩ [⟨0, 0, 0, 65535⟩]
      (SrcImage.paletted [⟨0, 0, 0, 65535⟩]) = none := by
  decide

/-- **C2.** Evaluated at the failing input: for an `*image.Paletted`
source whose palette equals the Ditherer's palette (here black/white, in
the same order, so equal even as sequences), the missing `else` branch
leaves `Dither` without a destination — `none`, the nil dereference
panic — instead of the in-place dither the claim (and the function's own
doc comment) promise.  Sources with a different palette, writable
sources, and read-only sources take the documented paths. -/
theorem paletted_same_palette_nil_dest :
    samePalette [(⟨0, 0, 0, 65535⟩ : RGBA64), ⟨65535, 65535, 65535, 65535⟩]
      [(⟨0, 0, 0, 65535⟩ : RGBA64), ⟨65535, 65535, 65535, 65535⟩] = true ∧
    selectDest [⟨0, 0, 0, 65535⟩, ⟨65535, 65535, 65535, 65535⟩]
      (SrcImage.paletted [⟨0, 0, 0, 65535⟩, ⟨65535, 65535, 65535, 65535⟩]) = none ∧
    selectDest [⟨0, 0, 0, 65535⟩, ⟨65535, 65535, 65535, 65535⟩]
      (SrcImage.paletted [⟨1, 1, 1, 65535⟩]) = some DitherDest.copy ∧
    selectDest [⟨0, 0, 0, 65535⟩, ⟨65535, 65535, 65535, 65535⟩]
      SrcImage.writable = some DitherDest.inPlace ∧
    selectDest [⟨0, 0, 0, 65535⟩, ⟨65535, 65535, 65535, 65535⟩]
      SrcImage.readonly = some DitherDest.copy := by
  decide

/-- **C4.** The Bayer synthesiser produces exactly the canonical
matrices on the four test dimensions (the reference values of
`TestBayerMatrix`, from the algorithm's source page). -/
theorem bayerMatrix_canonical :
    bayerMatrix 2 2 = [[0, 3], [2, 1]] ∧
    bayerMatrix 4 4 = [[0, 12, 3, 15], [8, 4, 11, 7], [2, 14, 1, 13], [10, 6, 9, 5]] ∧
    bayerMatrix 4 2 = [[0, 4, 2, 6], [3, 7, 1, 5]] ∧
    bayerMatrix 2 4 = [[0, 3], [4, 7], [2, 1], [6, 5]] := by
  decide

/-- **C6 (failing input).** The dimensions (3,5) are accepted by `Bayer`
with `Max = 15`, but the hand-coded 3×5 matrix contains the cell value
16 at row 0, column 2 — outside `[0, x·y − 1] = [0, 14]`.  (The value 6
is missing from the matrix, so 16 is evidently a transcription slip for
6.) -/
theorem bayer_3x5_cell_out_of_range :
    bayerChoice 3 5
      = some ([[0, 14, 16], [12, 8, 4], [7, 1, 10], [3, 5, 13], [9, 11, 2]], 15) ∧
    ¬(16 ≤ 3 * 5 - 1) := by
  decide

/-- **C8 (failing input).** A source whose bounds have a non-zero
minimum — here the 1×1 rectangle (0,1)–(1,2), exactly the kind of
sub-image `Dither` receives from `Draw` via `SubImage` — makes the
pre-fill pass index `lins[1]` while `lins` has only `Dy() = 1` rows: an
index-out-of-range panic (`none`), contradicting the claim that every
buffer access is in range.  The matrix here is well-formed (its top row
has a zero) and the palette non-empty, so nothing else is at fault. -/
theorem subimage_prefill_out_of_range :
    (ditherMatrixPath
        ⟨[[0, 1]], false, [⟨0, 0, 0, 65535⟩], [⟨0, 0, 0⟩]⟩
        ⟨⟨0, 1, 1, 2⟩, fun _ _ => ⟨0, 0, 0, 65535⟩, fun _ _ => ⟨0, 0, 0⟩⟩).isNone
      = true := by
  decide

/-- **C5 counterexample.** A 1×1 error-diffusion matrix whose top row
(`[1]`) contains no zero: the claim says the driver must panic, but
`CurrentPixel` simply returns `0 - 1 = -1` and the driver runs to
completion on a 1×1 image at the origin. -/
theorem no_zero_top_row_completes :
    (0 : ℚ) ∉ ([1] : List ℚ) ∧
    currentPixel [[1]] = some (-1) ∧
    (ditherMatrixPath ⟨[[1]], false, [⟨0, 0, 0, 65535⟩], [⟨0, 0, 0⟩]⟩
        ⟨⟨0, 0, 1, 1⟩, fun _ _ => ⟨0, 0, 0, 65535⟩, fun _ _ => ⟨0, 0, 0⟩⟩).isSome
      = true := by
  decide

/-- A `foldlM` over `Option` succeeds and preserves an invariant when
every step does. -/
theorem foldlM_option_invariant {β σ : Type} (P : σ → Prop) (f : σ → β → Option σ)
    (l : List β) :
    ∀ s, P s → (∀ s' b, b ∈ l → P s' → ∃ s'', f s' b = some s'' ∧ P s'') →
      ∃ s'', l.foldlM f s = some s'' ∧ P s'' := by
  induction l with
  | nil =>
    intro s hs _
    exact ⟨s, rfl, hs⟩
  | cons b l ih =>
    intro s hs hstep
    obtain ⟨s1, hf, hP1⟩ := hstep s b (List.mem_cons_self _ _) hs
    rw [List.foldlM_cons, hf]
    exact ih s1 hP1 fun s' b' hb' => hstep s' b' (List.mem_cons_of_mem _ hb')

theorem mem_intRange {lo hi v : Int} (h : v ∈ intRange lo hi) : lo ≤ v ∧ v < hi := by
  unfold intRange at h
  obtain ⟨i, hilt, hv⟩ := List.mem_map.1 h
  rw [List.mem_range] at hilt
  omega

/-- The `closestColor` loop only ever returns indices of the list (or
the initial `0`), so its result is below the palette length whatever the
channel values are. -/
theorem closestLoop_lt (r g b : Nat) :
    ∀ (l : List LinColor) (i color best n : Nat), color < n → i + l.length ≤ n →
      closestLoop r g b l i color best < n := by
  intro l
  induction l with
  | nil =>
    intro i color best n hc _
    simpa [closestLoop] using hc
  | cons c rest ih =>
    intro i color best n hc hlen
    simp only [List.length_cons] at hlen
    simp only [closestLoop]
    by_cases h1 : dist r g b c < best
    · rw [if_pos h1]
      by_cases h2 : dist r g b c = 0
      · rw [if_pos h2]
        omega
      · rw [if_neg h2]
        exact ih (i + 1) i _ n (by omega) (by omega)
    · rw [if_neg h1]
      exact ih (i + 1) color best n hc (by omega)

theorem closestColor_lt (r g b : Nat) (lp : List LinColor) (h : lp ≠ []) :
    closestColor r g b lp < lp.length :=
  closestLoop_lt r g b lp 0 0 (2 ^ 32 - 1) lp.length (List.length_pos.2 h) (by omega)

theorem sliceGet_some {α : Type} {l : List α} {i : Int}
    (h0 : 0 ≤ i) (hl : i.toNat < l.length) : ∃ a, sliceGet l i = some a := by
  unfold sliceGet
  rw [if_neg (by omega)]
  exact ⟨l[i.toNat], List.getElem?_eq_getElem hl⟩

theorem sliceGet_mem {α : Type} {l : List α} {i : Int} {a : α}
    (h : sliceGet l i = some a) : a ∈ l := by
  unfold sliceGet at h
  split at h
  · cases h
  · obtain ⟨hlt, rfl⟩ := List.getElem?_eq_some.1 h
    exact List.getElem_mem hlt

theorem sliceSet_some {α : Type} {l : List α} {i : Int} (a : α)
    (h0 : 0 ≤ i) (hl : i.toNat < l.length) :
    sliceSet l i a = some (l.set i.toNat a) := by
  unfold sliceSet
  rw [if_neg (by omega), if_pos hl]

theorem linearAt_some {h w : Nat} {lins : List (List LinColor)} {x y : Int}
    (hs : linsShape h w lins) (hx0 : 0 ≤ x) (hxw : x.toNat < w)
    (hy0 : 0 ≤ y) (hyh : y.toNat < h) : ∃ c, linearAt lins x y = some c := by
  obtain ⟨row, hrow⟩ := sliceGet_some hy0 (hs.1 ▸ hyh)
  have hrl : row.length = w := hs.2 row (sliceGet_mem hrow)
  obtain ⟨c, hc⟩ := sliceGet_some hx0 (hrl ▸ hxw)
  refine ⟨c, ?_⟩
  simp only [linearAt, hrow]
  exact hc

theorem linearSet_some {h w : Nat} {lins : List (List LinColor)} {x y : Int}
    (c : LinColor)
    (hs : linsShape h w lins) (hx0 : 0 ≤ x) (hxw : x.toNat < w)
    (hy0 : 0 ≤ y) (hyh : y.toNat < h) :
    ∃ lins', linearSet lins x y c = some lins' ∧ linsShape h w lins' := by
  obtain ⟨row, hrow⟩ := sliceGet_some hy0 (hs.1 ▸ hyh)
  have hrl : row.length = w := hs.2 row (sliceGet_mem hrow)
  have hset : sliceSet row x c = some (row.set x.toNat c) :=
    sliceSet_some c hx0 (hrl ▸ hxw)
  have hset2 : sliceSet lins y (row.set x.toNat c)
      = some (lins.set y.toNat (row.set x.toNat c)) :=
    sliceSet_some _ hy0 (hs.1 ▸ hyh)
  refine ⟨lins.set y.toNat (row.set x.toNat c), ?_, ?_, ?_⟩
  · simp only [linearSet, hrow, hset, hset2]
  · rw [List.length_set]
    exact hs.1
  · intro r hr
    rcases List.mem_or_eq_of_mem_set hr with h' | h'
    · exact hs.2 r h'
    · rw [h', List.length_set, hrl]

theorem prefill_some {img : EDImage} {lins0 : List (List LinColor)}
    (hminX : img.bounds.minX = 0) (hminY : img.bounds.minY = 0)
    (hs : linsShape img.bounds.maxY.toNat img.bounds.maxX.toNat lins0) :
    ∃ lins1, prefill img lins0 = some lins1 ∧
      linsShape img.bounds.maxY.toNat img.bounds.maxX.toNat lins1 := by
  unfold prefill
  apply foldlM_option_invariant
    (P := linsShape img.bounds.maxY.toNat img.bounds.maxX.toNat) _ _ _ hs
  intro lins y hy hP
  obtain ⟨hy0, hy1⟩ := mem_intRange hy
  rw [hminY] at hy0
  apply foldlM_option_invariant
    (P := linsShape img.bounds.maxY.toNat img.bounds.maxX.toNat) _ _ _ hP
  intro lins' x hx hP'
  obtain ⟨hx0, hx1⟩ := mem_intRange hx
  rw [hminX] at hx0
  exact linearSet_some _ hP' hx0 (by omega) hy0 (by omega)

theorem diffuseError_some {cfg : EDConfig} {b : Rect} {curPx x y : Int}
    {er eg eb : Int} {lins : List (List LinColor)}
    (hminX : b.minX = 0) (hminY : b.minY = 0)
    (hs : linsShape b.maxY.toNat b.maxX.toNat lins) :
    ∃ lins', diffuseError cfg b curPx x y er eg eb lins = some lins' ∧
      linsShape b.maxY.toNat b.maxX.toNat lins' := by
  unfold diffuseError
  apply foldlM_option_invariant
    (P := linsShape b.maxY.toNat b.maxX.toNat) _ _ _ hs
  intro lins1 yyRow _ hP1
  apply foldlM_option_invariant
    (P := linsShape b.maxY.toNat b.maxX.toNat) _ _ _ hP1
  intro lins2 xxW _ hP2
  by_cases hw : xxW.2 = 0
  · rw [if_pos hw]
    exact ⟨lins2, rfl, hP2⟩
  · rw [if_neg hw]
    set deltaX0 : Int := (xxW.1 : Int) - curPx with hdx0
    set deltaX : Int :=
      if cfg.serpentine ∧ y.tmod 2 = 0 then -deltaX0 else deltaX0 with hdx
    by_cases hin : inRect (x + deltaX) (y + (yyRow.1 : Int)) b = true
    · rw [if_pos hin]
      unfold inRect at hin
      rw [decide_eq_true_eq] at hin
      obtain ⟨h1, h2, h3, h4⟩ := hin
      rw [hminX] at h1
      rw [hminY] at h3
      obtain ⟨c, hc⟩ := linearAt_some hP2 h1 (by omega) h3 (by omega)
      rw [hc]
      exact linearSet_some _ hP2 h1 (by omega) h3 (by omega)
    · rw [if_neg hin]
      exact ⟨lins2, rfl, hP2⟩

theorem edPixelAt_some {cfg : EDConfig} {b : Rect} {curPx : Int} {st : EDState}
    {y x : Int}
    (hminX : b.minX = 0) (hminY : b.minY = 0)
    (hpal : cfg.palette ≠ [])
    (hlen : cfg.linearPalette.length = cfg.palette.length)
    (hs : linsShape b.maxY.toNat b.maxX.toNat st.lins)
    (hy0 : 0 ≤ y) (hy1 : y < b.maxY) (hx0 : 0 ≤ x) (hx1 : x < b.maxX) :
    ∃ st', edPixelAt cfg b curPx st y x = some st' ∧
      linsShape b.maxY.toNat b.maxX.toNat st'.lins := by
  have hlpne : cfg.linearPalette ≠ [] := by
    intro hnil
    rw [hnil] at hlen
    simp only [List.length_nil] at hlen
    exact hpal (List.length_eq_zero.1 hlen.symm)
  obtain ⟨old, hold⟩ := linearAt_some hs hx0 (by omega) hy0 (by omega)
  have hidx : closestColor old.r old.g old.b cfg.linearPalette
      < cfg.linearPalette.length := closestColor_lt _ _ _ _ hlpne
  obtain ⟨palColor, hpc⟩ := sliceGet_some (l := cfg.palette)
    (i := (closestColor old.r old.g old.b cfg.linearPalette : Int))
    (by positivity) (by rw [Int.toNat_natCast]; omega)
  obtain ⟨nw, hnw⟩ := sliceGet_some (l := cfg.linearPalette)
    (i := (closestColor old.r old.g old.b cfg.linearPalette : Int))
    (by positivity) (by rw [Int.toNat_natCast]; omega)
  obtain ⟨lins', hdiff, hshape'⟩ := @diffuseError_some cfg b curPx x y
    ((old.r : Int) - (nw.r : Int)) ((old.g : Int) - (nw.g : Int))
    ((old.b : Int) - (nw.b : Int)) st.lins hminX hminY hs
  have heq : edPixelAt cfg b curPx st y x
      = some ⟨lins', fun u v => if u = x ∧ v = y
          then premult palColor (st.px x y).A else st.px u v⟩ := by
    simp only [edPixelAt, hold, hpc, hnw, hdiff]
  exact ⟨_, heq, hshape'⟩

theorem edPixel_some {cfg : EDConfig} {b : Rect} {curPx : Int} {st : EDState}
    {y xRaw : Int}
    (hminX : b.minX = 0) (hminY : b.minY = 0)
    (hpal : cfg.palette ≠ [])
    (hlen : cfg.linearPalette.length = cfg.palette.length)
    (hs : linsShape b.maxY.toNat b.maxX.toNat st.lins)
    (hy0 : 0 ≤ y) (hy1 : y < b.maxY) (hx0 : 0 ≤ xRaw) (hx1 : xRaw < b.maxX) :
    ∃ st', edPixel cfg b curPx st y xRaw = some st' ∧
      linsShape b.maxY.toNat b.maxX.toNat st'.lins := by
  unfold edPixel
  by_cases hsp : cfg.serpentine ∧ y.tmod 2 = 0
  · rw [if_pos hsp]
    exact edPixelAt_some hminX hminY hpal hlen hs hy0 hy1 (by omega) (by omega)
  · rw [if_neg hsp]
    exact edPixelAt_some hminX hminY hpal hlen hs hy0 hy1 hx0 hx1

theorem edScan_some {cfg : EDConfig} {b : Rect} {curPx : Int} {st0 : EDState}
    (hminX : b.minX = 0) (hminY : b.minY = 0)
    (hpal : cfg.palette ≠ [])
    (hlen : cfg.linearPalette.length = cfg.palette.length)
    (hs : linsShape b.maxY.toNat b.maxX.toNat st0.lins) :
    ∃ st', edScan cfg b curPx st0 = some st' := by
  unfold edScan
  have hmain := foldlM_option_invariant
    (P := fun st : EDState => linsShape b.maxY.toNat b.maxX.toNat st.lins)
    (fun st y => (intRange b.minX b.maxX).foldlM
      (fun st x => edPixel cfg b curPx st y x) st)
    (intRange b.minY b.maxY) st0 hs ?_
  · obtain ⟨st', hst', _⟩ := hmain
    exact ⟨st', hst'⟩
  · intro st y hy hP
    obtain ⟨hy0, hy1⟩ := mem_intRange hy
    rw [hminY] at hy0
    apply foldlM_option_invariant
      (P := fun st : EDState => linsShape b.maxY.toNat b.maxX.toNat st.lins) _ _ _ hP
    intro st1 x hx hP1
    obtain ⟨hx0, hx1⟩ := mem_intRange hx
    rw [hminX] at hx0
    exact edPixel_some hminX hminY hpal hlen hP1 hy0 hy1 hx0 hx1

/-- **C5 (amended).** The error-diffusion driver never panics on account
of the matrix's top row: there is no malformed-matrix panic in the code.
For every non-empty matrix — whether or not its top row contains a zero;
`CurrentPixel` just returns the index before the first non-zero entry
(so `-1` for a row starting non-zero) or half the row width for an
all-zero row — and every non-empty palette with its linear form, the
driver runs to completion on any image whose bounds are anchored at the
origin.  (Bounds with a non-zero minimum do fault, but for the unrelated
indexing slip recorded under C8.) -/
theorem ditherMatrixPath_total (cfg : EDConfig) (img : EDImage)
    (hm : cfg.matrix ≠ []) (hpal : cfg.palette ≠ [])
    (hlen : cfg.linearPalette.length = cfg.palette.length)
    (hminX : img.bounds.minX = 0) (hminY : img.bounds.minY = 0)
    (hmaxX : 0 ≤ img.bounds.maxX) (hmaxY : 0 ≤ img.bounds.maxY) :
    (ditherMatrixPath cfg img).isSome = true := by
  obtain ⟨row, rest, hrow⟩ : ∃ row rest, cfg.matrix = row :: rest := by
    cases hmat : cfg.matrix with
    | nil => exact absurd hmat hm
    | cons row rest => exact ⟨row, rest, rfl⟩
  have hdy : img.bounds.dy = img.bounds.maxY := by
    unfold Rect.dy
    omega
  have hdx : img.bounds.dx = img.bounds.maxX := by
    unfold Rect.dx
    omega
  have hmk : mkLins img.bounds
      = some (List.replicate img.bounds.dy.toNat
          (List.replicate img.bounds.dx.toNat ⟨0, 0, 0⟩)) := by
    unfold mkLins
    rw [if_neg (by omega), if_neg (by omega)]
  have hshape0 : linsShape img.bounds.maxY.toNat img.bounds.maxX.toNat
      (List.replicate img.bounds.dy.toNat
        (List.replicate img.bounds.dx.toNat (⟨0, 0, 0⟩ : LinColor))) := by
    constructor
    · rw [List.length_replicate, hdy]
    · intro r hr
      rw [List.eq_of_mem_replicate hr, List.length_replicate, hdx]
  obtain ⟨lins1, hpre, hshape1⟩ := prefill_some hminX hminY hshape0
  obtain ⟨st', hscan⟩ := @edScan_some cfg img.bounds (cpLoop row.length row 0)
    ⟨lins1, img.px⟩ hminX hminY hpal hlen hshape1
  simp only [ditherMatrixPath, hrow, currentPixel, hmk, hpre, hscan,
    Option.isSome_some]

/-- Witness for `ditherMatrixPath_total`: the matrix `[[1]]` (top row
without a zero), a black palette, and a 1×1 image at the origin. -/
theorem ditherMatrixPath_total_witness :
    (([[1]] : List (List ℚ)) ≠ [] ∧
      ([(⟨0, 0, 0, 65535⟩ : RGBA64)]) ≠ [] ∧
      ([(⟨0, 0, 0⟩ : LinColor)]).length = ([(⟨0, 0, 0, 65535⟩ : RGBA64)]).length) ∧
    (ditherMatrixPath ⟨[[1]], true, [⟨0, 0, 0, 65535⟩], [⟨0, 0, 0⟩]⟩
        ⟨⟨0, 0, 1, 1⟩, fun _ _ => ⟨0, 0, 0, 65535⟩, fun _ _ => ⟨0, 0, 0⟩⟩).isSome
      = true :=
  ⟨⟨by simp, by simp, by simp⟩,
    ditherMatrixPath_total ⟨[[1]], true, [⟨0, 0, 0, 65535⟩], [⟨0, 0, 0⟩]⟩
      ⟨⟨0, 0, 1, 1⟩, fun _ _ => ⟨0, 0, 0, 65535⟩, fun _ _ => ⟨0, 0, 0⟩⟩
      (by simp) (by simp) (by simp) rfl rfl (by simp) (by simp)⟩

end Dither
